import Mathlib

/-!
Verification development for the minidom XML document-tree library.

The definitions below are a shallow embedding of the library's source:
  * `Element` / `Node` mirror `src/element.rs` / `src/node.rs` (the `BTreeMap`
    fields are represented as key-sorted association lists, which is the
    canonical ordered-map representation those maps maintain);
  * `NSChoice` mirrors `src/namespaces.rs`;
  * `escape` mirrors the byte-escaping function of `src/element.rs`;
  * `TreeBuilder` and `process_event` mirror `src/tree_builder.rs`
    (the Rust `Vec` stacks grow at the end; here the list head is the
    innermost entry, so `push` is cons and `pop` is tail);
  * `writeElement` mirrors `Element::write_to_inner`, collecting the
    emitted `rxml` items into a list instead of writing them to a stream.
-/

set_option maxHeartbeats 1000000

/-- Namespace prefix: `None` is the default (unprefixed) namespace. -/
abbrev Pfx := Option String

/-- Namespace identifier. -/
abbrev Ns := String

/-- Order on prefixes used by the Rust `BTreeMap<Option<String>, _>`:
`None` sorts before `Some`, and `Some` values sort by string order. -/
def pfxLt : Pfx → Pfx → Bool
  | none, none => false
  | none, some _ => true
  | some _, none => false
  | some a, some b => decide (a < b)

/-- Insertion into the key-sorted association list representing a
`BTreeMap<String, String>`; overwriting keeps the key's position, as a map
insert does. -/
def insertSorted (k v : String) : List (String × String) → List (String × String)
  | [] => [(k, v)]
  | (k', v') :: rest =>
    if k < k' then (k, v) :: (k', v') :: rest
    else if k = k' then (k, v) :: rest
    else (k', v') :: insertSorted k v rest

/-- Lookup in an association list with `String` keys (`BTreeMap::get`). -/
def lookupA (k : String) : List (String × String) → Option String
  | [] => none
  | (k', v') :: rest => if k = k' then some v' else lookupA k rest

/-- `Prefixes` of `src/prefixes.rs`: the `xmlns`/`xmlns:p` declarations of one
element, a `BTreeMap<Option<String>, String>` represented as a key-sorted
association list. -/
abbrev Prefixes := List (Pfx × Ns)

/-- `Prefixes::insert` (`BTreeMap::insert`: overwrite on duplicate key). -/
def prefixesInsert (k : Pfx) (v : Ns) : Prefixes → Prefixes
  | [] => [(k, v)]
  | (k', v') :: rest =>
    if pfxLt k k' then (k, v) :: (k', v') :: rest
    else if k = k' then (k, v) :: rest
    else (k', v') :: prefixesInsert k v rest

/-- `Prefixes::get`. -/
def prefixesGet (k : Pfx) : Prefixes → Option Ns
  | [] => none
  | (k', v') :: rest => if k = k' then some v' else prefixesGet k rest

mutual
/-- The `Element` struct of `src/element.rs`: local name, resolved namespace,
own prefix declarations, attributes (`BTreeMap` as sorted association list)
and the ordered child nodes. -/
inductive Element : Type where
  | mk (name : String) (nspace : Ns) (prefixes : Prefixes)
       (attributes : List (String × String)) (children : List Node)

/-- The `Node` enum of `src/node.rs`. -/
inductive Node : Type where
  | element (e : Element)
  | text (s : String)
end

/-- `Element::name`. -/
def Element.name : Element → String
  | .mk n _ _ _ _ => n

/-- `Element::ns`. -/
def Element.ns : Element → Ns
  | .mk _ ns _ _ _ => ns

/-- The `prefixes` field. -/
def Element.prefixes : Element → Prefixes
  | .mk _ _ p _ _ => p

/-- The `attributes` field. -/
def Element.attributes : Element → List (String × String)
  | .mk _ _ _ a _ => a

/-- The `children` field. -/
def Element.children : Element → List Node
  | .mk _ _ _ _ c => c

/-- Replace the `prefixes` field, leaving everything else unchanged. -/
def Element.setPrefixes : Element → Prefixes → Element
  | .mk n ns _ a c, p => .mk n ns p a c

/-- `Element::attr`. -/
def Element.attr (e : Element) (name : String) : Option String :=
  lookupA name e.attributes

/-- `Element::bare(name, namespace)`. -/
def Element.bare (name ns : String) : Element := .mk name ns [] [] []

/-- `Element::builder(name, namespace).build()` with no further builder calls:
the same bare element (`ElementBuilder` only wraps the root). -/
def Element.builder (name ns : String) : Element := .mk name ns [] [] []

/-- `Element::append_child` (the returned `&mut` is the stored child). -/
def Element.append_child (e : Element) (child : Element) : Element :=
  match e with
  | .mk n ns p a c => .mk n ns p a (c ++ [.element child])

/-- `Element::append_text_node`. -/
def Element.append_text_node (e : Element) (s : String) : Element :=
  match e with
  | .mk n ns p a c => .mk n ns p a (c ++ [.text s])

/-- `Element::append_node`. -/
def Element.append_node (e : Element) (node : Node) : Element :=
  match e with
  | .mk n ns p a c => .mk n ns p a (c ++ [node])

/-- `Element::set_attr`.  The value is already `Option String` (the result of
`IntoAttributeValue::into_attribute_value`).  The source panics
(`val.expect(..)`) when asked to remove an existing attribute by passing an
absent value; that panic is modelled as `none`. -/
def Element.set_attr (e : Element) (name : String) (val : Option String) :
    Option Element :=
  match lookupA name e.attributes with
  | some _ =>
    match val with
    | some v =>
      match e with
      | .mk n ns p a c => some (.mk n ns p (insertSorted name v a) c)
    | none => none
  | none =>
    match val with
    | some v =>
      match e with
      | .mk n ns p a c => some (.mk n ns p (insertSorted name v a) c)
    | none => some e

mutual
/-- `impl PartialEq for Element` of `src/element.rs`: compare name, namespace
and the attribute iterators, then the child-node counts, then the children
pairwise (`zip` + `all`, rendered as simultaneous list recursion, which agrees
with `zip`/`all` under the preceding count check). -/
def elemEq : Element → Element → Bool
  | .mk n1 ns1 _p1 a1 c1, .mk n2 ns2 _p2 a2 c2 =>
    if n1 == n2 && ns1 == ns2 && a1 == a2 then
      if c1.length != c2.length then false
      else nodesEqAll c1 c2
    else false

/-- `impl PartialEq for Node` of `src/node.rs`. -/
def nodeEq : Node → Node → Bool
  | .element a, .element b => elemEq a b
  | .text a, .text b => a == b
  | _, _ => false

/-- Pairwise equality of two child lists. -/
def nodesEqAll : List Node → List Node → Bool
  | [], [] => true
  | x :: xs, y :: ys => nodeEq x y && nodesEqAll xs ys
  | _, _ => false
end

/-- `NSChoice` of `src/namespaces.rs`. -/
inductive NSChoice : Type where
  | nsNone
  | oneOf (ns : String)
  | anyOf (nss : List String)
  | nsAny

/-- `NSChoice::compare`. -/
def NSChoice.compare : NSChoice → String → Bool
  | .nsNone, _ => false
  | .nsAny, _ => true
  | .oneOf wanted, ns => ns == wanted
  | .anyOf wanted, ns => wanted.any (fun w => ns == w)

/-- `Element::is`. -/
def Element.is (e : Element) (name : String) (c : NSChoice) : Bool :=
  e.name == name && c.compare e.ns

/-- `Element::has_ns`. -/
def Element.has_ns (e : Element) (c : NSChoice) : Bool :=
  c.compare e.ns

/-- The `to_escape` predicate of `escape` in `src/element.rs`: bytes
`<` (60), `>` (62), `'` (39), `&` (38), `"` (34). -/
def to_escape (b : Nat) : Bool :=
  b == 60 || b == 62 || b == 39 || b == 38 || b == 34

/-- Bytes of the entity chosen by the `match raw[loc]` arms of `escape`:
`&lt;`, `&gt;`, `&apos;`, `&amp;`, `&quot;`. -/
def entityFor (b : Nat) : List Nat :=
  if b == 60 then [38, 108, 116, 59]
  else if b == 62 then [38, 103, 116, 59]
  else if b == 39 then [38, 97, 112, 111, 115, 59]
  else if b == 38 then [38, 97, 109, 112, 59]
  else [38, 113, 117, 111, 116, 59]

/-- Phase 1 of `escape`: the `while let Some(i) = bytes.position(..)` loop,
collecting `(position, replacement)` pairs while `loc` advances byte by
byte. -/
def collectEscapes : List Nat → Nat → List (Nat × List Nat)
  | [], _ => []
  | b :: rest, loc =>
    if to_escape b then (loc, entityFor b) :: collectEscapes rest (loc + 1)
    else collectEscapes rest (loc + 1)

/-- Phase 2 of `escape`: the `for (i, r) in escapes` reconstruction loop —
copy `raw[start..i]`, emit the replacement, continue from `i + 1`, and append
the tail `raw[start..]` at the end. -/
def rebuild (raw : List Nat) : List (Nat × List Nat) → Nat → List Nat
  | [], start => raw.drop start
  | (i, r) :: rest, start =>
    (raw.drop start).take (i - start) ++ r ++ rebuild raw rest (i + 1)

/-- The `escape` function of `src/element.rs` on byte strings; when no byte
needs escaping, the input is returned as is (`Cow::Borrowed`). -/
def escape (raw : List Nat) : List Nat :=
  let escapes := collectEscapes raw 0
  if escapes.isEmpty then raw else rebuild raw escapes 0

/-- Per-byte substitution stated by the spec: an escapable byte becomes its
entity form, every other byte passes through unchanged. -/
def escByte (b : Nat) : List Nat :=
  if to_escape b then entityFor b else [b]

/-- The `Error` enum of `src/error.rs` (the `XmlError` wrapper for tokenizer
failures carries no information relevant here, since the modelled input is
already an event stream). -/
inductive Err : Type where
  | xmlError
  | endOfDocument
  | invalidPrefix
  | missingNamespace
  | duplicatePrefix
deriving DecidableEq

/-- The `rxml::RawEvent` variants consumed by `TreeBuilder::process_event`
(the external tokenizer's structural events, at the boundary described in the
spec).  Payload positions irrelevant to the tree builder (byte ranges,
XML version) are dropped. -/
inductive RawEvent : Type where
  | xmlDeclaration
  | elementHeadOpen (pfx : Pfx) (name : String)
  | attr (pfx : Pfx) (name : String) (value : String)
  | elementHeadClose
  | elementFoot
  | text (s : String)

/-- The `TreeBuilder` struct of `src/tree_builder.rs`.  The Rust `Vec` stacks
have their top at the end; here the list head is the top. -/
structure TreeBuilder : Type where
  next_tag : Option (Pfx × String × Prefixes × List (String × String))
  stack : List Element
  prefixes_stack : List Prefixes
  root : Option Element

/-- `TreeBuilder::new`. -/
def TreeBuilder.new : TreeBuilder :=
  { next_tag := none, stack := [], prefixes_stack := [], root := none }

/-- `TreeBuilder::with_prefixes_stack`. -/
def TreeBuilder.with_prefixes_stack (tb : TreeBuilder) (ps : List Prefixes) :
    TreeBuilder :=
  { tb with prefixes_stack := ps }

/-- `TreeBuilder::lookup_prefix`: walk the scope stack innermost-first
(`iter().rev()` over the Rust `Vec`, i.e. head-first here) and return the
first binding of the prefix. -/
def lookupPrefixStack (stack : List Prefixes) (pfx : Pfx) : Option Ns :=
  match stack with
  | [] => none
  | nss :: rest =>
    match prefixesGet pfx nss with
    | some ns => some ns
    | none => lookupPrefixStack rest pfx

/-- `TreeBuilder::process_end_tag`: `pop` removes the innermost element and
its prefix scope in lockstep; the popped element is appended to the new
innermost element, or becomes the root if the stack is now empty.  (`pop`
drops the innermost prefix scope even when the element stack is empty.) -/
def process_end_tag (tb : TreeBuilder) : Except Err TreeBuilder :=
  match tb.stack with
  | [] => .ok { tb with prefixes_stack := tb.prefixes_stack.tail }
  | el :: rest =>
    match rest with
    | top :: rest' =>
      .ok { tb with
              stack := top.append_child el :: rest'
              prefixes_stack := tb.prefixes_stack.tail }
    | [] =>
      .ok { tb with
              stack := []
              prefixes_stack := tb.prefixes_stack.tail
              root := some el }

/-- `TreeBuilder::process_text`: append a text node to the innermost open
element; discard the text if no element is open. -/
def process_text (tb : TreeBuilder) (s : String) : TreeBuilder :=
  match tb.stack with
  | [] => tb
  | top :: rest => { tb with stack := top.append_text_node s :: rest }

/-- `TreeBuilder::process_event` of `src/tree_builder.rs`. -/
def process_event (tb : TreeBuilder) : RawEvent → Except Err TreeBuilder
  | .xmlDeclaration => .ok tb
  | .elementHeadOpen pfx name =>
    .ok { tb with next_tag := some (pfx, name, [], []) }
  | .attr pfx name value =>
    match tb.next_tag with
    | some (tagPfx, tagName, prefixes, attrs) =>
      match pfx with
      | none =>
        if name == "xmlns" then
          .ok { tb with
                  next_tag := some (tagPfx, tagName, prefixesInsert none value prefixes, attrs) }
        else
          .ok { tb with
                  next_tag := some (tagPfx, tagName, prefixes, insertSorted name value attrs) }
      | some p =>
        if p == "xmlns" then
          .ok { tb with
                  next_tag := some (tagPfx, tagName, prefixesInsert (some name) value prefixes, attrs) }
        else
          .ok { tb with
                  next_tag := some (tagPfx, tagName, prefixes, insertSorted (p ++ ":" ++ name) value attrs) }
    | none => .ok tb
  | .elementHeadClose =>
    match tb.next_tag with
    | some (tagPfx, tagName, prefixes, attrs) =>
      match lookupPrefixStack (prefixes :: tb.prefixes_stack) tagPfx with
      | none => .error .missingNamespace
      | some ns =>
        .ok { tb with
                next_tag := none
                prefixes_stack := prefixes :: tb.prefixes_stack
                stack := Element.mk tagName ns prefixes attrs [] :: tb.stack }
    | none => .ok tb
  | .elementFoot => process_end_tag tb
  | .text s => .ok (process_text tb s)

/-- The event loop shared by `Element::from_reader` and
`Element::from_reader_with_prefixes`: feed each event to the tree builder,
return the root as soon as it appears, propagate builder failures, and fail
with `EndOfDocument` when the stream is exhausted. -/
def from_events (tb : TreeBuilder) : List RawEvent → Except Err Element
  | [] => .error .endOfDocument
  | ev :: rest =>
    match process_event tb ev with
    | .error e => .error e
    | .ok tb' =>
      match tb'.root with
      | some root => .ok root
      | none => from_events tb' rest

/-- `Element::from_reader`, with the tokenizer abstracted to its event
stream. -/
def from_reader (events : List RawEvent) : Except Err Element :=
  from_events TreeBuilder.new events

/-- `Element::from_reader_with_prefixes`, with the tokenizer abstracted to its
event stream. -/
def from_reader_with_prefixes (events : List RawEvent) (prefixes : Prefixes) :
    Except Err Element :=
  from_events (TreeBuilder.new.with_prefixes_stack [prefixes]) events

/-- The `rxml::writer::Item` variants emitted by `Element::write_to_inner`
and `Node::write_to_inner` (the write-item vocabulary of the spec's encoder
boundary). -/
inductive Item : Type where
  | xmlDeclaration
  | elementHeadStart (ns : Option Ns) (name : String)
  | attr (ns : Option Ns) (name : String) (value : String)
  | elementHeadEnd
  | text (s : String)
  | elementFoot
deriving DecidableEq

/-- Modelled from the spec: the prefix-binding table of the external
`rxml` encoder (`SimpleNamespaces`), which `write_to_inner` seeds via
`declare_fixed` and queries via `lookup_prefix`.  The encoder itself is an
external collaborator, specified only at its boundary; a flat table of
bindings with first-match lookup suffices for the serializer logic modelled
here. -/
structure ItemWriter : Type where
  bindings : List (Pfx × Ns)

/-- A fresh encoder (`ItemWriter::new`). -/
def ItemWriter.init : ItemWriter := { bindings := [] }

/-- `declare_fixed` on the encoder: register a prefix binding. -/
def ItemWriter.declare (w : ItemWriter) (pfx : Pfx) (ns : Ns) : ItemWriter :=
  { bindings := (pfx, ns) :: w.bindings }

/-- `lookup_prefix` on the encoder: first matching binding. -/
def ItemWriter.lookupBinding (w : ItemWriter) (pfx : Pfx) : Option Ns :=
  match w.bindings.find? (fun kv => kv.1 == pfx) with
  | some kv => some kv.2
  | none => none

/-- Split a character list at its first colon: the part before it, and the
part after it when a colon exists. -/
def splitAtColon : List Char → List Char × Option (List Char)
  | [] => ([], none)
  | c :: rest =>
    if c = ':' then ([], some rest)
    else
      let (pre, post) := splitAtColon rest
      (c :: pre, post)

/-- `rxml::NameStr::split_name` on an attribute key: split a `p:local`
spelling into its prefix and local part at the first colon; a key without a
colon has no prefix. -/
def splitName (k : String) : Pfx × String :=
  match splitAtColon k.data with
  | (_, none) => (none, k)
  | (pre, some post) => (some (String.mk pre), String.mk post)

/-- Seed the encoder with the element's own declared prefixes — the first
loop of `write_to_inner`. -/
def declareAll (prefixes : Prefixes) (w : ItemWriter) : ItemWriter :=
  match prefixes with
  | [] => w
  | (pfx, ns) :: rest => declareAll rest (w.declare pfx ns)

/-- The attribute loop of `write_to_inner`: split each key, resolve its
prefix through the encoder's bindings (failing with `InvalidPrefix` when
undeclared), and emit one attribute item per attribute. -/
def writeAttrs (w : ItemWriter) : List (String × String) → Except Err (List Item)
  | [] => .ok []
  | (k, v) :: rest =>
    match splitName k with
    | (some p, local_) =>
      match w.lookupBinding (some p) with
      | some nsb =>
        match writeAttrs w rest with
        | .ok items => .ok (.attr (some nsb) local_ v :: items)
        | .error e => .error e
      | none => .error .invalidPrefix
    | (none, local_) =>
      match writeAttrs w rest with
      | .ok items => .ok (.attr none local_ v :: items)
      | .error e => .error e

mutual
/-- `Element::write_to_inner` of `src/element.rs`, collecting the emitted
items: seed the element's declared prefixes, emit the element head start
(with `None` for the empty namespace), the attribute items, then either the
foot immediately (no children) or head end, the children's items, and the
foot. -/
def writeElement (e : Element) (w : ItemWriter) : Except Err (List Item × ItemWriter) :=
  match e with
  | .mk name ns prefixes attrs children =>
    let w := declareAll prefixes w
    let nsOpt := if ns == "" then none else some ns
    match writeAttrs w attrs with
    | .error e => .error e
    | .ok attrItems =>
      if children.isEmpty then
        .ok (.elementHeadStart nsOpt name :: attrItems ++ [.elementFoot], w)
      else
        match writeNodes children w with
        | .error e => .error e
        | .ok (body, w') =>
          .ok (.elementHeadStart nsOpt name :: attrItems ++
                 (.elementHeadEnd :: body ++ [.elementFoot]), w')

/-- `Node::write_to_inner` of `src/node.rs`. -/
def writeNode (n : Node) (w : ItemWriter) : Except Err (List Item × ItemWriter) :=
  match n with
  | .element e => writeElement e w
  | .text s => .ok ([.text s], w)

/-- The child loop of `write_to_inner`. -/
def writeNodes (l : List Node) (w : ItemWriter) : Except Err (List Item × ItemWriter) :=
  match l with
  | [] => .ok ([], w)
  | n :: rest =>
    match writeNode n w with
    | .error e => .error e
    | .ok (items, w') =>
      match writeNodes rest w' with
      | .error e => .error e
      | .ok (items', w'') => .ok (items ++ items', w'')
end

/-- Flush a pending run of text as a single tokenizer event (an empty run
produces no bytes and hence no event). -/
def flushText (pending : String) : List RawEvent :=
  if pending == "" then [] else [.text pending]

/-- Modelled from the spec: the composition of the external encoder
(write-items to bytes) and the external tokenizer (bytes to structural
events), which the spec treats as out-of-scope collaborators specified only
at their boundaries.  Each element head start becomes a head-open event plus
an explicit default-namespace declaration (a conforming prefix choice by the
encoder); attribute items keep their local names; head end becomes head
close; a foot on a still-open head closes the head first (self-closing tag);
consecutive text items merge into one text run at the byte bottleneck, and an
empty run vanishes.  `pending` is the text accumulated since the last
structural item, `headOpen` whether a head start is still unclosed. -/
def transduceGo (pending : String) (headOpen : Bool) : List Item → List RawEvent
  | [] => flushText pending
  | .xmlDeclaration :: rest =>
    flushText pending ++ .xmlDeclaration :: transduceGo "" false rest
  | .elementHeadStart nsOpt name :: rest =>
    flushText pending ++ .elementHeadOpen none name ::
      .attr none "xmlns" (nsOpt.getD "") :: transduceGo "" true rest
  | .attr _nsb local_ value :: rest =>
    flushText pending ++ .attr none local_ value :: transduceGo "" headOpen rest
  | .elementHeadEnd :: rest =>
    flushText pending ++ .elementHeadClose :: transduceGo "" false rest
  | .elementFoot :: rest =>
    flushText pending ++
      (if headOpen then [.elementHeadClose, .elementFoot] else [.elementFoot]) ++
      transduceGo "" false rest
  | .text s :: rest => transduceGo (pending ++ s) headOpen rest

/-- The encoder-plus-tokenizer boundary applied to a whole item stream. -/
def transduce (items : List Item) : List RawEvent :=
  transduceGo "" false items

/-- `parse(serialize(T))` — `String::from(&elem)` (via `write_to`) followed by
`Element::from_reader`, with the byte leg replaced by the boundary transducer
`transduce`. -/
def roundTrip (e : Element) : Except Err Element :=
  match writeElement e ItemWriter.init with
  | .error err => .error err
  | .ok (items, _) => from_reader (transduce items)

/-- Round-trip check: `some b` when serialization succeeded and parsing it
back succeeded, with `b` telling whether the reparse is `==` to the
original; `none` when either leg failed. -/
def checkRT (e : Element) : Option Bool :=
  match roundTrip e with
  | .ok e' => some (elemEq e' e)
  | .error _ => none

mutual
/-- The item stream `write_to_inner` emits for an element whose attribute
keys are all prefix-free (so no encoder lookup is consulted). -/
def itemsOfE (e : Element) : List Item :=
  match e with
  | .mk name ns _prefixes attrs children =>
    .elementHeadStart (if ns == "" then none else some ns) name ::
      (attrs.map fun kv => .attr none kv.1 kv.2) ++
      (if children.isEmpty then [.elementFoot]
       else .elementHeadEnd :: itemsOfL children ++ [.elementFoot])

/-- Item stream of one child node. -/
def itemsOfN (n : Node) : List Item :=
  match n with
  | .element e => itemsOfE e
  | .text s => [.text s]

/-- Item stream of a child list. -/
def itemsOfL (l : List Node) : List Item :=
  match l with
  | [] => []
  | n :: rest => itemsOfN n ++ itemsOfL rest
end

mutual
/-- The event stream the boundary transducer produces for one serialized
element: head open, the default-namespace declaration, the attributes, head
close, the children's events, foot. -/
def eventsOfE (e : Element) : List RawEvent :=
  match e with
  | .mk name ns _prefixes attrs children =>
    .elementHeadOpen none name :: .attr none "xmlns" ns ::
      (attrs.map fun kv => .attr none kv.1 kv.2) ++
      .elementHeadClose :: eventsOfL children ++ [.elementFoot]

/-- Event stream of one child node. -/
def eventsOfN (n : Node) : List RawEvent :=
  match n with
  | .element e => eventsOfE e
  | .text s => [.text s]

/-- Event stream of a child list. -/
def eventsOfL (l : List Node) : List RawEvent :=
  match l with
  | [] => []
  | n :: rest => eventsOfN n ++ eventsOfL rest
end

mutual
/-- The element the tree builder reconstructs from a serialized element: the
same tree except that every `prefixes` field becomes the single default
declaration the serializer's boundary emitted. -/
def reparsed (e : Element) : Element :=
  match e with
  | .mk name ns _prefixes attrs children =>
    .mk name ns [(none, ns)] attrs (reparsedL children)

/-- Reconstruction of one node. -/
def reparsedN (n : Node) : Node :=
  match n with
  | .element e => .element (reparsed e)
  | .text s => .text s

/-- Reconstruction of a child list. -/
def reparsedL (l : List Node) : List Node :=
  match l with
  | [] => []
  | n :: rest => reparsedN n :: reparsedL rest
end

/-- An attribute key that survives the round trip as itself: it has no
prefix part (whether it splits without a prefix and rejoins to itself) and
is not the reserved default-declaration name `xmlns`. -/
def wfAttrKey (k : String) : Bool :=
  (match splitName k with
   | (none, local_) => local_ == k
   | (some _, _) => false) && k != "xmlns"

/-- Neither empty nor immediately followed by another text node — the list
shape the byte bottleneck preserves. -/
def noLeadText : List Node → Bool
  | .text _ :: _ => false
  | _ => true

mutual
/-- Round-trippable trees: attribute maps sorted (the `BTreeMap`
representation invariant) with plain non-`xmlns` keys, and child lists with
no empty text node and no two adjacent text nodes. -/
def wfE (e : Element) : Bool :=
  match e with
  | .mk _name _ns _prefixes attrs children =>
    decide (attrs.Pairwise fun kv kv' => kv.1 < kv'.1) &&
      attrs.all (fun kv => wfAttrKey kv.1) && wfL children

/-- Round-trippable child lists. -/
def wfL (l : List Node) : Bool :=
  match l with
  | [] => true
  | .text s :: rest => s != "" && noLeadText rest && wfL rest
  | .element e :: rest => wfE e && wfL rest
end

mutual
/-- The equality stated by the spec, written as an inductive predicate: two
elements are equal iff names, namespaces and attribute mappings are equal and
the child sequences are equal pairwise in order — recursively for element
children, by string equality for text children.  The `prefixes` fields are
not mentioned at all. -/
inductive SpecEqE : Element → Element → Prop where
  | mk : ∀ name ns p1 p2 attrs c1 c2,
      SpecEqL c1 c2 →
      SpecEqE (.mk name ns p1 attrs c1) (.mk name ns p2 attrs c2)

/-- Pairwise spec equality of child sequences. -/
inductive SpecEqL : List Node → List Node → Prop where
  | nil : SpecEqL [] []
  | consE : ∀ e1 e2 t1 t2, SpecEqE e1 e2 → SpecEqL t1 t2 →
      SpecEqL (.element e1 :: t1) (.element e2 :: t2)
  | consT : ∀ s t1 t2, SpecEqL t1 t2 →
      SpecEqL (.text s :: t1) (.text s :: t2)
end

/-- Whether a write item is an attribute item. -/
def isAttrItem : Item → Bool
  | .attr _ _ _ => true
  | _ => false

mutual
/-- Well-formed write-item sequences for an element, as stated by the spec's
encoder contract: a head start, attribute items, then — iff the element has
children — a head end and the children's sequences, and in every case exactly
one matching foot closing the element (immediately after the attributes when
there are no children). -/
inductive ShapedE : Element → List Item → Prop where
  | leaf : ∀ name ns p attrs nsOpt nm mid,
      (∀ it ∈ mid, isAttrItem it = true) →
      ShapedE (.mk name ns p attrs [])
        (.elementHeadStart nsOpt nm :: mid ++ [.elementFoot])
  | parent : ∀ name ns p attrs c cs nsOpt nm mid body,
      (∀ it ∈ mid, isAttrItem it = true) →
      ShapedL (c :: cs) body →
      ShapedE (.mk name ns p attrs (c :: cs))
        (.elementHeadStart nsOpt nm :: mid ++ .elementHeadEnd :: body ++ [.elementFoot])

/-- Well-formed write-item sequence for one node. -/
inductive ShapedN : Node → List Item → Prop where
  | elem : ∀ e items, ShapedE e items → ShapedN (.element e) items
  | text : ∀ s, ShapedN (.text s) [.text s]

/-- Concatenation of well-formed sequences for a child list. -/
inductive ShapedL : List Node → List Item → Prop where
  | nil : ShapedL [] []
  | cons : ∀ n ns items items', ShapedN n items → ShapedL ns items' →
      ShapedL (n :: ns) (items ++ items')
end

/-- The event stream runs dry: every event processes without failure, and no
root is ever produced — the stream is exhausted before a root element is
fully closed. -/
def runsDry (tb : TreeBuilder) : List RawEvent → Prop
  | [] => True
  | ev :: rest => ∃ tb', process_event tb ev = .ok tb' ∧ tb'.root = none ∧
      runsDry tb' rest

/-- Event stream of `<root xmlns='ns1'><p1:child1 xmlns:p1='ns2'/><p1:child2/></root>`. -/
def isoEvents : List RawEvent :=
  [.elementHeadOpen none "root", .attr none "xmlns" "ns1", .elementHeadClose,
   .elementHeadOpen (some "p1") "child1", .attr (some "xmlns") "p1" "ns2",
   .elementHeadClose, .elementFoot,
   .elementHeadOpen (some "p1") "child2", .elementHeadClose, .elementFoot,
   .elementFoot]

/-- Event stream of `<root xmlns='ns1'><child xmlns='ns2'><grandchild xmlns='ns1'/></child></root>`. -/
def shadowEvents : List RawEvent :=
  [.elementHeadOpen none "root", .attr none "xmlns" "ns1", .elementHeadClose,
   .elementHeadOpen none "child", .attr none "xmlns" "ns2", .elementHeadClose,
   .elementHeadOpen none "grandchild", .attr none "xmlns" "ns1", .elementHeadClose,
   .elementFoot, .elementFoot, .elementFoot]

/-- Event stream of `<a xmlns='ns' p:b='v'/>`: the attribute prefix `p` has no
declaration anywhere. -/
def attrPfxEvents : List RawEvent :=
  [.elementHeadOpen none "a", .attr none "xmlns" "ns",
   .attr (some "p") "b" "v", .elementHeadClose, .elementFoot]

/-- A tree built via the public mutation API only: `Element::bare` followed by
two `append_text_node` calls, producing two adjacent text children. -/
def adjacentTexts : Element :=
  ((Element.bare "a" "ns").append_text_node "x").append_text_node "y"

/-- A tree built via the public mutation API: `builder`, `set_attr` with a
present value, `append_child`, `append_text_node` (`getD` only unwraps the
`some` that `set_attr` returns for a present value). -/
def sampleTree : Element :=
  ((((Element.builder "r" "ns1").set_attr "k" (some "v")).getD
      (Element.builder "r" "ns1")).append_child
    ((Element.bare "c" "ns2").append_text_node "hello")).append_text_node "tail"

/-- The tree parsed from
`<root xmlns='ns1'><child xmlns='ns2'><grandchild xmlns='ns1'/></child></root>`:
the grandchild's namespace is `ns1`, shadowing the intermediate `ns2`. -/
def shadowResult : Element :=
  .mk "root" "ns1" [(none, "ns1")] []
    [.element (.mk "child" "ns2" [(none, "ns2")] []
      [.element (.mk "grandchild" "ns1" [(none, "ns1")] [] [])])]

/-- Append a batch of nodes at the end of an element's children. -/
def addChildren (t : Element) (ns : List Node) : Element :=
  match t with
  | .mk n nsp p a c => .mk n nsp p a (c ++ ns)

/-- Pending-text side condition: a child list that starts with a text node
must be entered with no pending text. -/
def leadTextOk : List Node → String → Prop
  | .text _ :: _, pend => pend = ""
  | _, _ => True

theorem tree_ind (mE : Element → Prop) (mN : Node → Prop) (mL : List Node → Prop)
    (hE : ∀ n ns p a c, mL c → mE (.mk n ns p a c))
    (hNe : ∀ e, mE e → mN (.element e))
    (hNt : ∀ s, mN (.text s))
    (hnil : mL [])
    (hcons : ∀ x xs, mN x → mL xs → mL (x :: xs)) :
    (∀ e, mE e) ∧ (∀ n, mN n) ∧ (∀ l, mL l) := by
  have key : ∀ k : Nat, (∀ e : Element, sizeOf e ≤ k → mE e) ∧
      (∀ n : Node, sizeOf n ≤ k → mN n) ∧ (∀ l : List Node, sizeOf l ≤ k → mL l) := by
    intro k
    induction k with
    | zero =>
      refine ⟨?_, ?_, ?_⟩
      · intro e he; exfalso; cases e; simp at he
      · intro n hn; exfalso; cases n <;> simp at hn
      · intro l hl; exfalso; cases l <;> simp at hl
    | succ k ih =>
      obtain ⟨ihE, ihN, ihL⟩ := ih
      refine ⟨?_, ?_, ?_⟩
      · intro e he
        cases e with
        | mk n ns p a c =>
          apply hE
          apply ihL
          simp at he
          omega
      · intro n hn
        cases n with
        | element e =>
          apply hNe
          apply ihE
          simp at hn
          omega
        | text s => exact hNt s
      · intro l hl
        cases l with
        | nil => exact hnil
        | cons x xs =>
          simp at hl
          exact hcons x xs (ihN x (by omega)) (ihL xs (by omega))
  exact ⟨fun e => (key (sizeOf e)).1 e le_rfl,
         fun n => (key (sizeOf n)).2.1 n le_rfl,
         fun l => (key (sizeOf l)).2.2 l le_rfl⟩

theorem lookupA_insertSorted_self (k v : String) :
    ∀ l, lookupA k (insertSorted k v l) = some v := by
  intro l
  induction l with
  | nil => simp [insertSorted, lookupA]
  | cons kv rest ih =>
    obtain ⟨k', v'⟩ := kv
    by_cases h1 : k < k'
    · simp [insertSorted, h1, lookupA]
    · by_cases h2 : k = k'
      · simp [insertSorted, h1, h2, lookupA]
      · simp [insertSorted, h1, h2, lookupA, ih]

/-- C10: `NSChoice::None.compare` returns `false` for every namespace string,
including the empty string, so `is` and `has_ns` with `NSChoice::None` are
`false` for every element — an empty-string namespace is never special-cased
as "no namespace". -/
theorem c10_nschoice_none_never_matches :
    (∀ ns : String, NSChoice.nsNone.compare ns = false) ∧
    (NSChoice.nsNone.compare "" = false) ∧
    (∀ (e : Element) (nm : String), e.is nm .nsNone = false) ∧
    (∀ e : Element, e.has_ns .nsNone = false) := by
  refine ⟨fun ns => rfl, rfl, fun e nm => ?_, fun e => rfl⟩
  simp [Element.is, NSChoice.compare]

/-- C6: `set_attr` with an absent value is a no-op when the key is absent,
fails loudly (the modelled panic) when the key is present — never silently
removing the attribute — and with a present value inserts or overwrites the
key, leaving every other field unchanged. -/
theorem c6_set_attr (e : Element) (k : String) :
    (lookupA k e.attributes = none → e.set_attr k none = some e) ∧
    (∀ v0, lookupA k e.attributes = some v0 → e.set_attr k none = none) ∧
    (∀ v, ∃ e', e.set_attr k (some v) = some e' ∧ e'.attr k = some v ∧
      e'.attributes = insertSorted k v e.attributes ∧ e'.name = e.name ∧
      e'.ns = e.ns ∧ e'.prefixes = e.prefixes ∧ e'.children = e.children) := by
  obtain ⟨n, ns, p, a, c⟩ := e
  refine ⟨?_, ?_, ?_⟩
  · intro h
    simp [Element.set_attr, Element.attributes] at h ⊢
    simp [h]
  · intro v0 h
    simp [Element.set_attr, Element.attributes] at h ⊢
    simp [h]
  · intro v
    refine ⟨Element.mk n ns p (insertSorted k v a) c, ?_, ?_, rfl, rfl, rfl, rfl, rfl⟩
    · simp [Element.set_attr, Element.attributes]
      cases lookupA k a <;> simp
    · simp [Element.attr, Element.attributes, lookupA_insertSorted_self]

theorem nodesEqAll_length : ∀ c c', nodesEqAll c c' = true → c.length = c'.length := by
  intro c
  induction c with
  | nil => intro c' h; cases c' <;> simp_all [nodesEqAll]
  | cons x xs ih =>
    intro c' h
    cases c' with
    | nil => simp [nodesEqAll] at h
    | cons y ys =>
      rw [nodesEqAll] at h
      simp only [Bool.and_eq_true] at h
      simp [ih ys h.2]

theorem elemEq_iff_specEq :
    (∀ a b, elemEq a b = true ↔ SpecEqE a b) ∧
    (∀ (n : Node), (match n with
      | .element e => ∀ b, elemEq e b = true ↔ SpecEqE e b
      | .text _ => True)) ∧
    (∀ l l', nodesEqAll l l' = true ↔ SpecEqL l l') := by
  have main := tree_ind
    (fun a => ∀ b, elemEq a b = true ↔ SpecEqE a b)
    (fun n => match n with
      | .element e => ∀ b, elemEq e b = true ↔ SpecEqE e b
      | .text _ => True)
    (fun l => ∀ l', nodesEqAll l l' = true ↔ SpecEqL l l')
    ?_ ?_ ?_ ?_ ?_
  · exact ⟨main.1, main.2.1, main.2.2⟩
  · intro n ns p a c hc b
    obtain ⟨n', ns', p', a', c'⟩ := b
    rw [elemEq]
    constructor
    · intro h
      by_cases hhead : (n == n' && ns == ns' && a == a') = true
      · rw [hhead] at h
        simp only [Bool.and_eq_true, beq_iff_eq] at hhead
        obtain ⟨⟨h1, h2⟩, h3⟩ := hhead
        subst h1; subst h2; subst h3
        by_cases hlen : (c.length != c'.length) = true
        · simp [hlen] at h
        · simp only [hlen] at h
          simp only [Bool.false_eq_true, if_false] at h
          exact SpecEqE.mk n ns p p' a c c' ((hc c').1 h)
      · simp only [Bool.not_eq_true] at hhead
        rw [hhead] at h
        simp at h
    · intro h
      cases h with
      | mk _ _ _ _ _ _ _ hl =>
        have hall : nodesEqAll c c' = true := (hc c').2 hl
        have hlen : c.length = c'.length := nodesEqAll_length c c' hall
        simp [hlen, hall]
  · intro e he
    exact he
  · intro s
    trivial
  · intro l'
    cases l' with
    | nil => simp [nodesEqAll]; exact SpecEqL.nil
    | cons y ys =>
      simp [nodesEqAll]
      intro h
      cases h
  · intro x xs hx hxs l'
    cases l' with
    | nil =>
      constructor
      · intro h; cases x <;> simp [nodesEqAll] at h
      · intro h; cases h
    | cons y ys =>
      rw [nodesEqAll]
      simp only [Bool.and_eq_true]
      constructor
      · rintro ⟨h1, h2⟩
        cases x with
        | element e1 =>
          cases y with
          | element e2 =>
            rw [nodeEq] at h1
            exact SpecEqL.consE e1 e2 xs ys ((hx e2).1 h1) ((hxs ys).1 h2)
          | text s => simp [nodeEq] at h1
        | text s =>
          cases y with
          | element e2 => simp [nodeEq] at h1
          | text s' =>
            rw [nodeEq] at h1
            simp only [beq_iff_eq] at h1
            subst h1
            exact SpecEqL.consT s xs ys ((hxs ys).1 h2)
      · intro h
        cases h with
        | consE e1 e2 t1 t2 he ht =>
          exact ⟨by rw [nodeEq]; exact (hx e2).2 he, (hxs ys).2 ht⟩
        | consT s t1 t2 ht =>
          exact ⟨by rw [nodeEq]; simp, (hxs ys).2 ht⟩

/-- C2: two `Element`s are `==` iff their names, namespaces and attribute
mappings are equal and their child sequences are equal pairwise in order
(recursively for element children, by string equality for text children) —
the `SpecEqE` predicate — and the `prefixes` field plays no role: replacing
the prefix declarations on either side never changes the comparison. -/
theorem c2_partial_eq_spec (a b : Element) :
    (elemEq a b = true ↔ SpecEqE a b) ∧
    (∀ p q, elemEq (a.setPrefixes p) (b.setPrefixes q) = elemEq a b) := by
  constructor
  · exact elemEq_iff_specEq.1 a b
  · intro p q
    obtain ⟨n1, ns1, p1, a1, c1⟩ := a
    obtain ⟨n2, ns2, p2, a2, c2⟩ := b
    rw [Element.setPrefixes, Element.setPrefixes, elemEq, elemEq]

theorem collectEscapes_pos_ge :
    ∀ (l : List Nat) (k : Nat) (e : Nat × List Nat),
      e ∈ collectEscapes l k → k ≤ e.1 := by
  intro l
  induction l with
  | nil => intro k e h; simp [collectEscapes] at h
  | cons b rest ih =>
    intro k e h
    rw [collectEscapes] at h
    by_cases hb : to_escape b = true
    · simp only [hb, if_true, List.mem_cons] at h
      cases h with
      | inl h => subst h; simp
      | inr h => exact Nat.le_of_succ_le (ih (k + 1) e h)
    · simp only [Bool.not_eq_true] at hb
      rw [hb] at h
      simp only [Bool.false_eq_true, if_false] at h
      exact Nat.le_of_succ_le (ih (k + 1) e h)

theorem rebuild_nonesc_head (raw : List Nat) (b : Nat) (k : Nat)
    (hdrop : raw.drop k = b :: raw.drop (k + 1)) :
    ∀ es : List (Nat × List Nat),
      (match es with
       | [] => True
       | e :: _ => k + 1 ≤ e.1) →
      rebuild raw es k = b :: rebuild raw es (k + 1) := by
  intro es hes
  cases es with
  | nil =>
    rw [rebuild, rebuild, hdrop]
  | cons e rest =>
    obtain ⟨i, r⟩ := e
    simp only at hes
    rw [rebuild, rebuild, hdrop]
    have h1 : i - k = (i - (k + 1)) + 1 := by omega
    rw [h1, List.take_succ_cons]
    simp

theorem rebuild_collect (raw : List Nat) :
    ∀ (l : List Nat) (k : Nat), raw.drop k = l →
      rebuild raw (collectEscapes l k) k = l.flatMap escByte := by
  intro l
  induction l with
  | nil =>
    intro k h
    rw [collectEscapes, rebuild, h]
    simp
  | cons b rest ih =>
    intro k h
    have hdrop1 : raw.drop (k + 1) = rest := by
      rw [← List.tail_drop, h]
      rfl
    rw [collectEscapes]
    by_cases hb : to_escape b = true
    · simp only [hb, if_true]
      rw [rebuild]
      have htake : (raw.drop k).take (k - k) = [] := by
        simp [Nat.sub_self]
      rw [htake, ih (k + 1) hdrop1]
      simp [escByte, hb]
    · simp only [Bool.not_eq_true] at hb
      rw [hb]
      simp only [Bool.false_eq_true, if_false]
      have hge : match collectEscapes rest (k + 1) with
          | [] => True
          | e :: _ => k + 1 ≤ e.1 := by
        cases hc : collectEscapes rest (k + 1) with
        | nil => trivial
        | cons e es =>
          exact collectEscapes_pos_ge rest (k + 1) e (by rw [hc]; simp)
      rw [rebuild_nonesc_head raw b k (by rw [h, hdrop1]) _ hge,
          ih (k + 1) hdrop1]
      simp [escByte, hb]

theorem collectEscapes_eq_nil_iff :
    ∀ (l : List Nat) (k : Nat),
      collectEscapes l k = [] ↔ l.all (fun b => !to_escape b) = true := by
  intro l
  induction l with
  | nil => intro k; simp [collectEscapes]
  | cons b rest ih =>
    intro k
    rw [collectEscapes]
    by_cases hb : to_escape b = true
    · simp [hb]
    · simp only [Bool.not_eq_true] at hb
      rw [hb]
      simp [ih (k + 1), hb]

theorem flatMap_escByte_id :
    ∀ l : List Nat, l.all (fun b => !to_escape b) = true →
      l.flatMap escByte = l := by
  intro l
  induction l with
  | nil => intro _; simp
  | cons b rest ih =>
    intro h
    simp only [List.all_cons, Bool.and_eq_true, Bool.not_eq_true'] at h
    simp [escByte, h.1, ih (by simpa using h.2)]

/-- C7: `escape` acts as the per-byte substitution `escByte` mapped over the
input — every escapable byte (`<`, `>`, `&`, `'`, `"`) is replaced by its
entity form and every other byte passes through unchanged, in order — and on
input containing none of those five bytes the output equals the input. -/
theorem c7_escape_pure (raw : List Nat) :
    escape raw = raw.flatMap escByte ∧
    (raw.all (fun b => !to_escape b) = true → escape raw = raw) := by
  have main : escape raw = raw.flatMap escByte := by
    rw [escape]
    by_cases h : (collectEscapes raw 0).isEmpty = true
    · simp only [h, if_true]
      rw [List.isEmpty_iff] at h
      rw [flatMap_escByte_id raw ((collectEscapes_eq_nil_iff raw 0).1 h)]
    · simp only [h]
      simp only [Bool.false_eq_true, if_false]
      exact rebuild_collect raw raw 0 (by simp)
  exact ⟨main, fun h => by rw [main, flatMap_escByte_id raw h]⟩

/-- Closed-form check of C7 at a concrete input, discharging the
non-escapable-input hypothesis: `"h<3"` escapes to `"h&lt;3"` and `"hi"`
is returned unchanged. -/
theorem c7_escape_pure_witness :
    escape [104, 60, 51] = [104, 38, 108, 116, 59, 51] ∧
    ([104, 105].all (fun b => !to_escape b) = true ∧ escape [104, 105] = [104, 105]) := by
  refine ⟨by decide, by decide, (c7_escape_pure [104, 105]).2 (by decide)⟩

theorem process_event_error_eq (tb : TreeBuilder) (ev : RawEvent) (e : Err) :
    process_event tb ev = .error e → e = .missingNamespace := by
  intro h
  cases ev <;> rw [process_event] at h <;> (try rw [process_end_tag] at h) <;>
    (repeat' split at h) <;> simp_all

theorem from_events_eod_iff :
    ∀ (es : List RawEvent) (tb : TreeBuilder),
      from_events tb es = .error .endOfDocument ↔ runsDry tb es := by
  intro es
  induction es with
  | nil => intro tb; simp [from_events, runsDry]
  | cons ev rest ih =>
    intro tb
    rw [from_events, runsDry]
    cases hpe : process_event tb ev with
    | error e =>
      simp only
      constructor
      · intro h
        exfalso
        have he : e = .missingNamespace := process_event_error_eq tb ev e hpe
        simp [he] at h
      · rintro ⟨tb', hok, _, _⟩
        simp at hok
    | ok tb' =>
      simp only
      cases hroot : tb'.root with
      | some r =>
        simp only
        constructor
        · intro h; simp at h
        · rintro ⟨tb'', hok, hroot', _⟩
          simp at hok
          subst hok
          rw [hroot] at hroot'
          simp at hroot'
      | none =>
        simp only
        constructor
        · intro h
          exact ⟨tb', rfl, hroot, (ih tb').1 h⟩
        · rintro ⟨tb'', hok, hroot', hrd⟩
          simp at hok
          subst hok
          exact (ih tb').2 hrd

/-- C8: `from_reader` and `from_reader_with_prefixes` fail with
`EndOfDocument` exactly when the event stream is exhausted with every event
processed successfully and no root element ever completed (`runsDry`) — the
single pass over the stream is never retried. -/
theorem c8_end_of_document (es : List RawEvent) :
    (from_reader es = .error .endOfDocument ↔ runsDry TreeBuilder.new es) ∧
    (∀ pfs : Prefixes,
      from_reader_with_prefixes es pfs = .error .endOfDocument ↔
        runsDry (TreeBuilder.new.with_prefixes_stack [pfs]) es) := by
  exact ⟨from_events_eod_iff es TreeBuilder.new,
         fun pfs => from_events_eod_iff es (TreeBuilder.new.with_prefixes_stack [pfs])⟩

/-- C3 counterexample: `<a xmlns='ns' p:b='v'/>` has an attribute whose
prefix `p` has no visible declaration anywhere on the scope stack when the
tag's head closes (the innermost scope declares only the default prefix),
yet the parse succeeds — so `MissingNamespace` is not raised for undeclared
attribute prefixes, contradicting the claim's "element or attribute". -/
theorem c3_counterexample :
    lookupPrefixStack [[(none, "ns")]] (some "p") = none ∧
    from_reader attrPfxEvents =
      .ok (Element.mk "a" "ns" [(none, "ns")] [("p:b", "v")] []) := by
  exact ⟨rfl, rfl⟩

/-- C3 (amended): during parsing, `MissingNamespace` is raised exactly when
the *element's* prefix has no visible declaration anywhere on the current
scope stack (including the just-pushed scope) at the moment the tag's head
closes; attribute prefixes are not resolved at parse time.  It is the only
failure the tree builder raises, and any builder failure aborts the whole
parse with no partial tree. -/
theorem c3_missing_namespace_amended :
    (∀ (tb : TreeBuilder) (tagPfx : Pfx) (tagName : String)
       (prefixes : Prefixes) (attrs : List (String × String)),
      tb.next_tag = some (tagPfx, tagName, prefixes, attrs) →
      (process_event tb .elementHeadClose = .error .missingNamespace ↔
        lookupPrefixStack (prefixes :: tb.prefixes_stack) tagPfx = none)) ∧
    (∀ (tb : TreeBuilder) (ev : RawEvent) (e : Err),
      process_event tb ev = .error e → e = .missingNamespace) ∧
    (∀ (tb : TreeBuilder) (ev : RawEvent) (rest : List RawEvent) (e : Err),
      process_event tb ev = .error e →
      from_events tb (ev :: rest) = .error e) := by
  refine ⟨?_, process_event_error_eq, ?_⟩
  · intro tb tagPfx tagName prefixes attrs htag
    obtain ⟨nt, st, ps, rt⟩ := tb
    simp only at htag
    subst htag
    dsimp only [process_event]
    cases hlk : lookupPrefixStack (prefixes :: ps) tagPfx <;> simp
  · intro tb ev rest e h
    rw [from_events, h]

/-- Closed instance of the amended C3: with a buffered tag whose prefix `p`
is undeclared, head close fails with `MissingNamespace`, and the failure
propagates out of the event loop. -/
theorem c3_missing_namespace_amended_witness :
    process_event
      { next_tag := some (some "p", "x", [], []), stack := [],
        prefixes_stack := [], root := none }
      .elementHeadClose = .error .missingNamespace ∧
    from_events
      { next_tag := some (some "p", "x", [], []), stack := [],
        prefixes_stack := [], root := none }
      [.elementHeadClose] = .error .missingNamespace := by
  have h1 := (c3_missing_namespace_amended.1
    { next_tag := some (some "p", "x", [], []), stack := [],
      prefixes_stack := [], root := none }
    (some "p") "x" [] [] rfl).2 rfl
  exact ⟨h1, c3_missing_namespace_amended.2.2 _ .elementHeadClose [] .missingNamespace h1⟩

/-- C4: processing an element foot pops the element stack and the
prefix-scope stack in lockstep — the popped scope is gone before any
following sibling event is processed — and consequently parsing
`<root xmlns='ns1'><p1:child1 xmlns:p1='ns2'/><p1:child2/></root>` fails
with `MissingNamespace`, because the sibling cannot inherit `p1`. -/
theorem c4_scope_isolation :
    (∀ tb : TreeBuilder, ∃ tb', process_event tb .elementFoot = .ok tb' ∧
      tb'.prefixes_stack = tb.prefixes_stack.tail ∧
      (tb.stack = [] → tb'.stack = [] ∧ tb'.root = tb.root) ∧
      (∀ el, tb.stack = [el] → tb'.stack = [] ∧ tb'.root = some el) ∧
      (∀ el top r, tb.stack = el :: top :: r →
        tb'.stack = top.append_child el :: r ∧ tb'.root = tb.root)) ∧
    from_reader isoEvents = .error .missingNamespace := by
  constructor
  · intro tb
    obtain ⟨nt, st, ps, rt⟩ := tb
    rcases st with _ | ⟨el, _ | ⟨top, r⟩⟩
    · refine ⟨_, rfl, rfl, fun _ => ⟨rfl, rfl⟩, fun el h => by simp at h,
        fun el top r h => by simp at h⟩
    · refine ⟨_, rfl, rfl, fun h => by simp at h, fun el' h => ?_,
        fun el' top r h => by simp at h⟩
      simp only [List.cons.injEq, and_true] at h
      subst h
      exact ⟨rfl, rfl⟩
    · refine ⟨_, rfl, rfl, fun h => by simp at h, fun el' h => by simp at h,
        fun el' top' r' h => ?_⟩
      simp only [List.cons.injEq] at h
      obtain ⟨h1, h2, h3⟩ := h
      subst h1; subst h2; subst h3
      exact ⟨rfl, rfl⟩
  · rfl

/-- Closed instance of C4 at a two-element stack: the foot pops the scope
stack in lockstep and appends the popped child to the new top. -/
theorem c4_scope_isolation_witness :
    ∃ tb', process_event
      { next_tag := none, stack := [Element.bare "c" "n2", Element.bare "r" "n1"],
        prefixes_stack := [[(none, "n2")], [(none, "n1")]], root := none }
      .elementFoot = .ok tb' ∧
      tb'.prefixes_stack = [[(none, "n1")]] ∧
      tb'.stack = [(Element.bare "r" "n1").append_child (Element.bare "c" "n2")] := by
  obtain ⟨tb', hok, hps, -, -, hcons⟩ := c4_scope_isolation.1
    { next_tag := none, stack := [Element.bare "c" "n2", Element.bare "r" "n1"],
      prefixes_stack := [[(none, "n2")], [(none, "n1")]], root := none }
  obtain ⟨hstk, -⟩ := hcons (Element.bare "c" "n2") (Element.bare "r" "n1") [] rfl
  exact ⟨tb', hok, hps, hstk⟩

/-- C5: namespace resolution walks the scope stack innermost-first — a
binding in the innermost scope wins outright, and an innermost miss falls
through to the outer scopes — the element pushed at head close carries the
namespace found by that walk starting at the just-pushed scope, and parsing
the shadowing document succeeds with the grandchild's namespace `ns1`. -/
theorem c5_innermost_shadowing :
    (∀ (scope : Prefixes) (rest : List Prefixes) (pfx : Pfx) (ns : Ns),
      prefixesGet pfx scope = some ns →
      lookupPrefixStack (scope :: rest) pfx = some ns) ∧
    (∀ (scope : Prefixes) (rest : List Prefixes) (pfx : Pfx),
      prefixesGet pfx scope = none →
      lookupPrefixStack (scope :: rest) pfx = lookupPrefixStack rest pfx) ∧
    (∀ (tb : TreeBuilder) (tagPfx : Pfx) (tagName : String)
       (prefixes : Prefixes) (attrs : List (String × String)) (ns : Ns),
      tb.next_tag = some (tagPfx, tagName, prefixes, attrs) →
      lookupPrefixStack (prefixes :: tb.prefixes_stack) tagPfx = some ns →
      process_event tb .elementHeadClose = .ok { tb with
        next_tag := none
        prefixes_stack := prefixes :: tb.prefixes_stack
        stack := Element.mk tagName ns prefixes attrs [] :: tb.stack }) ∧
    from_reader shadowEvents = .ok shadowResult := by
  refine ⟨?_, ?_, ?_, rfl⟩
  · intro scope rest pfx ns h
    rw [lookupPrefixStack, h]
  · intro scope rest pfx h
    rw [lookupPrefixStack, h]
  · intro tb tagPfx tagName prefixes attrs ns htag hlk
    obtain ⟨nt, st, ps, rt⟩ := tb
    simp only at htag hlk ⊢
    subst htag
    dsimp only [process_event]
    rw [hlk]

/-- Closed instance of C5: the innermost scope's binding of the default
prefix shadows the outer one, and head close resolves through it. -/
theorem c5_innermost_shadowing_witness :
    lookupPrefixStack [[(none, "ns1")], [(none, "ns2")]] none = some "ns1" ∧
    process_event
      { next_tag := some (none, "g", [(none, "ns1")], []), stack := [],
        prefixes_stack := [[(none, "ns2")]], root := none }
      .elementHeadClose = .ok
      { next_tag := none, stack := [Element.mk "g" "ns1" [(none, "ns1")] [] []],
        prefixes_stack := [[(none, "ns1")], [(none, "ns2")]], root := none } := by
  refine ⟨c5_innermost_shadowing.1 [(none, "ns1")] [[(none, "ns2")]] none "ns1" rfl, ?_⟩
  exact c5_innermost_shadowing.2.2.1
    { next_tag := some (none, "g", [(none, "ns1")], []), stack := [],
      prefixes_stack := [[(none, "ns2")]], root := none }
    none "g" [(none, "ns1")] [] "ns1" rfl rfl

/-- Closed instance of C6: no-op on an absent key with absent value, loud
failure on a present key with absent value, insert with a present value. -/
theorem c6_set_attr_witness :
    (Element.bare "x" "n").set_attr "a" none = some (Element.bare "x" "n") ∧
    (Element.mk "x" "n" [] [("a", "1")] []).set_attr "a" none = none ∧
    (∃ e', (Element.bare "x" "n").set_attr "a" (some "v") = some e' ∧
      e'.attr "a" = some "v" ∧
      e'.attributes = insertSorted "a" "v" (Element.bare "x" "n").attributes ∧
      e'.name = (Element.bare "x" "n").name ∧ e'.ns = (Element.bare "x" "n").ns ∧
      e'.prefixes = (Element.bare "x" "n").prefixes ∧
      e'.children = (Element.bare "x" "n").children) := by
  exact ⟨(c6_set_attr (Element.bare "x" "n") "a").1 rfl,
         (c6_set_attr (Element.mk "x" "n" [] [("a", "1")] []) "a").2.1 "1" rfl,
         (c6_set_attr (Element.bare "x" "n") "a").2.2 "v"⟩

theorem writeAttrs_items_attr (w : ItemWriter) :
    ∀ (a : List (String × String)) (its : List Item),
      writeAttrs w a = .ok its → ∀ it ∈ its, isAttrItem it = true := by
  intro a
  induction a with
  | nil =>
    intro its h it hm
    rw [writeAttrs] at h
    simp at h
    subst h
    simp at hm
  | cons kv rest ih =>
    intro its h it hm
    obtain ⟨k, v⟩ := kv
    rw [writeAttrs] at h
    cases hsp : splitName k with
    | mk pfx loc =>
      rw [hsp] at h
      cases pfx with
      | some p =>
        simp only at h
        cases hlb : w.lookupBinding (some p) with
        | none => rw [hlb] at h; simp at h
        | some nsb =>
          rw [hlb] at h
          cases hrest : writeAttrs w rest with
          | error e => rw [hrest] at h; simp at h
          | ok items =>
            rw [hrest] at h
            simp at h
            subst h
            rcases List.mem_cons.1 hm with h1 | h1
            · subst h1; rfl
            · exact ih items hrest it h1
      | none =>
        simp only at h
        cases hrest : writeAttrs w rest with
        | error e => rw [hrest] at h; simp at h
        | ok items =>
          rw [hrest] at h
          simp at h
          subst h
          rcases List.mem_cons.1 hm with h1 | h1
          · subst h1; rfl
          · exact ih items hrest it h1

theorem writeShape_all :
    (∀ e : Element, ∀ w its w', writeElement e w = .ok (its, w') → ShapedE e its) ∧
    (∀ n : Node, ∀ w its w', writeNode n w = .ok (its, w') → ShapedN n its) ∧
    (∀ l : List Node, ∀ w its w', writeNodes l w = .ok (its, w') → ShapedL l its) := by
  exact tree_ind
    (fun e => ∀ w its w', writeElement e w = .ok (its, w') → ShapedE e its)
    (fun n => ∀ w its w', writeNode n w = .ok (its, w') → ShapedN n its)
    (fun l => ∀ w its w', writeNodes l w = .ok (its, w') → ShapedL l its)
    (by
      intro n ns p a c hc w its w' h
      rw [writeElement] at h
      cases hwa : writeAttrs (declareAll p w) a with
      | error e => rw [hwa] at h; simp at h
      | ok attrItems =>
        rw [hwa] at h
        have hmid := writeAttrs_items_attr (declareAll p w) a attrItems hwa
        cases c with
        | nil =>
          simp only [List.isEmpty_nil, if_true] at h
          simp at h
          obtain ⟨h1, _⟩ := h
          subst h1
          exact ShapedE.leaf n ns p a _ n attrItems hmid
        | cons c0 cs =>
          simp only [List.isEmpty_cons] at h
          simp only [Bool.false_eq_true, if_false] at h
          cases hwn : writeNodes (c0 :: cs) (declareAll p w) with
          | error e => rw [hwn] at h; simp at h
          | ok bw =>
            obtain ⟨body, w''⟩ := bw
            rw [hwn] at h
            simp at h
            obtain ⟨h1, _⟩ := h
            subst h1
            simpa using ShapedE.parent n ns p a c0 cs (if ns = "" then none else some ns)
              n attrItems body hmid (hc (declareAll p w) body w'' hwn))
    (by
      intro e he w its w' h
      rw [writeNode] at h
      exact ShapedN.elem e its (he w its w' h))
    (by
      intro s w its w' h
      rw [writeNode] at h
      simp at h
      obtain ⟨h1, _⟩ := h
      subst h1
      exact ShapedN.text s)
    (by
      intro w its w' h
      rw [writeNodes] at h
      simp at h
      obtain ⟨h1, _⟩ := h
      subst h1
      exact ShapedL.nil)
    (by
      intro x xs hx hxs w its w' h
      rw [writeNodes] at h
      cases hwn : writeNode x w with
      | error e => rw [hwn] at h; simp at h
      | ok iw =>
        obtain ⟨items, w1⟩ := iw
        rw [hwn] at h
        simp only at h
        cases hwns : writeNodes xs w1 with
        | error e => rw [hwns] at h; simp at h
        | ok iw2 =>
          obtain ⟨items2, w2⟩ := iw2
          rw [hwns] at h
          simp at h
          obtain ⟨h1, _⟩ := h
          subst h1
          exact ShapedL.cons x xs items items2 (hx w items w1 hwn)
            (hxs w1 items2 w2 hwns))

/-- C9: whenever serialization of an element succeeds, the emitted write-item
sequence is well-formed: a head start, attribute items, then — iff the
element has at least one child — a head end followed by the children's
well-formed sequences, and in every case exactly one matching foot, emitted
immediately after the attributes when the element is childless. -/
theorem c9_write_items_shape (e : Element) (w : ItemWriter) (its : List Item)
    (w' : ItemWriter) (h : writeElement e w = .ok (its, w')) : ShapedE e its :=
  writeShape_all.1 e w its w' h

/-- Closed instance of C9 on `<a xmlns='ns' k='v'>t</a>`: the computed item
sequence is well-formed. -/
theorem c9_write_items_shape_witness :
    ShapedE (Element.mk "a" "ns" [] [("k", "v")] [.text "t"])
      [.elementHeadStart (some "ns") "a", .attr none "k" "v",
       .elementHeadEnd, .text "t", .elementFoot] :=
  c9_write_items_shape (Element.mk "a" "ns" [] [("k", "v")] [.text "t"])
    ItemWriter.init
    [.elementHeadStart (some "ns") "a", .attr none "k" "v",
     .elementHeadEnd, .text "t", .elementFoot]
    ItemWriter.init rfl

theorem addChildren_nil (t : Element) : addChildren t [] = t := by
  obtain ⟨n, ns, p, a, c⟩ := t
  simp [addChildren]

theorem addChildren_append (t : Element) (l1 l2 : List Node) :
    addChildren (addChildren t l1) l2 = addChildren t (l1 ++ l2) := by
  obtain ⟨n, ns, p, a, c⟩ := t
  simp [addChildren]

theorem append_child_addChildren (t : Element) (e : Element) :
    t.append_child e = addChildren t [.element e] := by
  obtain ⟨n, ns, p, a, c⟩ := t
  simp [Element.append_child, addChildren]

theorem append_text_addChildren (t : Element) (s : String) :
    t.append_text_node s = addChildren t [.text s] := by
  obtain ⟨n, ns, p, a, c⟩ := t
  simp [Element.append_text_node, addChildren]

theorem writeAttrs_plain (w : ItemWriter) :
    ∀ attrs : List (String × String),
      attrs.all (fun kv => wfAttrKey kv.1) = true →
      writeAttrs w attrs = .ok (attrs.map fun kv => .attr none kv.1 kv.2) := by
  intro attrs
  induction attrs with
  | nil => intro _; rw [writeAttrs]; simp
  | cons kv rest ih =>
    intro hall
    obtain ⟨k, v⟩ := kv
    simp only [List.all_cons, Bool.and_eq_true] at hall
    obtain ⟨hk, hrest⟩ := hall
    rw [wfAttrKey, Bool.and_eq_true] at hk
    obtain ⟨hsplit, _⟩ := hk
    rw [writeAttrs]
    cases hsp : splitName k with
    | mk pfx loc =>
      cases pfx with
      | some p => rw [hsp] at hsplit; simp at hsplit
      | none =>
        rw [hsp] at hsplit
        simp only [beq_iff_eq] at hsplit
        subst hsplit
        simp only
        rw [ih hrest]
        simp

theorem write_wf_items :
    (∀ e : Element, wfE e = true → ∀ w, ∃ w',
      writeElement e w = .ok (itemsOfE e, w')) ∧
    (∀ n : Node, (match n with | .element e => wfE e | .text _ => true) = true →
      ∀ w, ∃ w', writeNode n w = .ok (itemsOfN n, w')) ∧
    (∀ l : List Node, wfL l = true → ∀ w, ∃ w',
      writeNodes l w = .ok (itemsOfL l, w')) := by
  exact tree_ind
    (fun e => wfE e = true → ∀ w, ∃ w', writeElement e w = .ok (itemsOfE e, w'))
    (fun n => (match n with | .element e => wfE e | .text _ => true) = true →
      ∀ w, ∃ w', writeNode n w = .ok (itemsOfN n, w'))
    (fun l => wfL l = true → ∀ w, ∃ w', writeNodes l w = .ok (itemsOfL l, w'))
    (by
      intro n ns p a c hc hwf w
      rw [wfE] at hwf
      simp only [Bool.and_eq_true] at hwf
      obtain ⟨⟨_, hkeys⟩, hch⟩ := hwf
      rw [writeElement, itemsOfE]
      rw [writeAttrs_plain (declareAll p w) a hkeys]
      cases c with
      | nil =>
        simp only [List.isEmpty_nil, if_true]
        exact ⟨declareAll p w, rfl⟩
      | cons c0 cs =>
        simp only [List.isEmpty_cons, Bool.false_eq_true, if_false]
        obtain ⟨w', hw'⟩ := hc hch (declareAll p w)
        rw [hw']
        exact ⟨w', rfl⟩)
    (by
      intro e he hwf w
      rw [writeNode, itemsOfN]
      exact he hwf w)
    (by
      intro s _ w
      rw [writeNode, itemsOfN]
      exact ⟨w, rfl⟩)
    (by
      intro _ w
      rw [writeNodes, itemsOfL]
      exact ⟨w, rfl⟩)
    (by
      intro x xs hx hxs hwf w
      rw [writeNodes, itemsOfL]
      cases x with
      | element e =>
        rw [wfL] at hwf
        simp only [Bool.and_eq_true] at hwf
        obtain ⟨he, hrest⟩ := hwf
        obtain ⟨w1, hw1⟩ := hx he w
        rw [hw1]
        obtain ⟨w2, hw2⟩ := hxs hrest w1
        dsimp only
        rw [hw2]
        exact ⟨w2, rfl⟩
      | text s =>
        rw [wfL] at hwf
        simp only [Bool.and_eq_true] at hwf
        obtain ⟨⟨_, _⟩, hrest⟩ := hwf
        obtain ⟨w2, hw2⟩ := hxs hrest w
        simp only [writeNode, itemsOfN]
        rw [hw2]
        exact ⟨w2, rfl⟩)

theorem flushText_empty : flushText "" = [] := rfl

theorem string_empty_append (s : String) : "" ++ s = s := by
  cases s
  rfl

theorem transduce_attrs :
    ∀ (attrs : List (String × String)) (b : Bool) (x : List Item),
      transduceGo "" b ((attrs.map fun kv => Item.attr none kv.1 kv.2) ++ x) =
      (attrs.map fun kv => RawEvent.attr none kv.1 kv.2) ++ transduceGo "" b x := by
  intro attrs
  induction attrs with
  | nil => intro b x; simp
  | cons kv rest ih =>
    intro b x
    obtain ⟨k, v⟩ := kv
    simp only [List.map_cons, List.cons_append]
    rw [transduceGo, flushText_empty, ih]
    simp

theorem leadTextOk_empty : ∀ l : List Node, leadTextOk l "" := by
  intro l
  cases l with
  | nil => trivial
  | cons x xs => cases x <;> simp [leadTextOk]

theorem getD_nsOpt (ns : String) :
    (if (ns == "") = true then (none : Option Ns) else some ns).getD "" = ns := by
  by_cases h : (ns == "") = true
  · simp only [h, if_true, Option.getD_none]
    simp only [beq_iff_eq] at h
    exact h.symm
  · simp only [h, Bool.false_eq_true, if_false, Option.getD_some]

theorem transduce_events :
    (∀ e : Element, wfE e = true → ∀ pend rest,
      transduceGo pend false (itemsOfE e ++ rest) =
      flushText pend ++ eventsOfE e ++ transduceGo "" false rest) ∧
    (∀ n : Node, (match n with
      | .element e => wfE e = true → ∀ pend rest,
          transduceGo pend false (itemsOfE e ++ rest) =
          flushText pend ++ eventsOfE e ++ transduceGo "" false rest
      | .text _ => True)) ∧
    (∀ l : List Node, wfL l = true → ∀ pend rest, leadTextOk l pend →
      transduceGo pend false (itemsOfL l ++ .elementFoot :: rest) =
      flushText pend ++ eventsOfL l ++ .elementFoot :: transduceGo "" false rest) := by
  exact tree_ind
    (fun e => wfE e = true → ∀ pend rest,
      transduceGo pend false (itemsOfE e ++ rest) =
      flushText pend ++ eventsOfE e ++ transduceGo "" false rest)
    (fun n => match n with
      | .element e => wfE e = true → ∀ pend rest,
          transduceGo pend false (itemsOfE e ++ rest) =
          flushText pend ++ eventsOfE e ++ transduceGo "" false rest
      | .text _ => True)
    (fun l => wfL l = true → ∀ pend rest, leadTextOk l pend →
      transduceGo pend false (itemsOfL l ++ .elementFoot :: rest) =
      flushText pend ++ eventsOfL l ++ .elementFoot :: transduceGo "" false rest)
    (by
      intro n ns p a c hc hwf pend rest
      rw [wfE] at hwf
      simp only [Bool.and_eq_true] at hwf
      obtain ⟨⟨_, _⟩, hch⟩ := hwf
      simp only [itemsOfE, List.cons_append, List.append_assoc]
      rw [transduceGo, getD_nsOpt, transduce_attrs]
      cases c with
      | nil =>
        simp only [List.isEmpty_nil, if_true, List.cons_append, List.nil_append]
        rw [transduceGo]
        simp [eventsOfE, eventsOfL, flushText_empty]
      | cons c0 cs =>
        simp only [List.isEmpty_cons, Bool.false_eq_true, if_false,
          List.cons_append, List.append_assoc]
        rw [transduceGo, flushText_empty]
        simp only [List.nil_append]
        rw [hc hch "" rest (leadTextOk_empty _), flushText_empty]
        simp [eventsOfE]
    )
    (by intro e he; exact he)
    (by intro s; trivial)
    (by
      intro _ pend rest _
      simp only [itemsOfL, List.nil_append, eventsOfL]
      rw [transduceGo]
      simp
    )
    (by
      intro x xs hx hxs hwf pend rest hcond
      cases x with
      | element e =>
        rw [wfL] at hwf
        simp only [Bool.and_eq_true] at hwf
        obtain ⟨he, hrest⟩ := hwf
        simp only [itemsOfL, itemsOfN, List.append_assoc]
        rw [hx he pend (itemsOfL xs ++ .elementFoot :: rest),
            hxs hrest "" rest (leadTextOk_empty _), flushText_empty, List.nil_append]
        simp [eventsOfL, eventsOfN]
      | text s =>
        have hpend : pend = "" := hcond
        subst hpend
        rw [wfL] at hwf
        simp only [Bool.and_eq_true] at hwf
        obtain ⟨⟨hs, hnl⟩, hrest⟩ := hwf
        have hcond2 : leadTextOk xs s := by
          cases xs with
          | nil => trivial
          | cons y ys =>
            cases y with
            | element e2 => trivial
            | text s2 => rw [noLeadText] at hnl; simp at hnl
        simp only [itemsOfL, itemsOfN, List.cons_append, List.nil_append]
        rw [transduceGo, string_empty_append, hxs hrest s rest hcond2]
        have hflush : flushText s = [.text s] := by
          rw [flushText]
          simp only [bne_iff_ne, ne_eq] at hs
          simp [hs]
        rw [hflush, flushText_empty, List.nil_append]
        simp [eventsOfL, eventsOfN]
    )

theorem insertSorted_append_gt :
    ∀ (acc : List (String × String)) (k v : String),
      (∀ kv ∈ acc, kv.1 < k) → insertSorted k v acc = acc ++ [(k, v)] := by
  intro acc
  induction acc with
  | nil => intro k v _; rw [insertSorted]; rfl
  | cons kv0 acc' ih =>
    intro k v hall
    obtain ⟨k0, v0⟩ := kv0
    have hk0 : k0 < k := hall (k0, v0) (List.mem_cons_self _ _)
    have h1 : ¬(k < k0) := by
      intro hcon
      exact absurd (lt_trans hcon hk0) (lt_irrefl k)
    have h2 : ¬(k = k0) := by
      intro hcon
      subst hcon
      exact absurd hk0 (lt_irrefl k)
    rw [insertSorted]
    simp only [h1, if_false, h2]
    rw [ih k v (fun kv hm => hall kv (List.mem_cons_of_mem _ hm))]
    simp

theorem foldl_insertSorted_sorted :
    ∀ (l acc : List (String × String)),
      (acc ++ l).Pairwise (fun x y => x.1 < y.1) →
      l.foldl (fun m kv => insertSorted kv.1 kv.2 m) acc = acc ++ l := by
  intro l
  induction l with
  | nil => intro acc _; simp
  | cons kv l' ih =>
    intro acc hpw
    obtain ⟨k, v⟩ := kv
    rw [List.foldl_cons]
    have hlt : ∀ kv' ∈ acc, kv'.1 < k := by
      intro kv' hm
      have := (List.pairwise_append.1 hpw).2.2 kv' hm (k, v) (List.mem_cons_self _ _)
      exact this
    rw [insertSorted_append_gt acc k v hlt]
    have hpw' : ((acc ++ [(k, v)]) ++ l').Pairwise (fun x y => x.1 < y.1) := by
      simpa [List.append_assoc] using hpw
    rw [ih (acc ++ [(k, v)]) hpw']
    simp

theorem parse_attrs :
    ∀ (attrs : List (String × String)),
      (attrs.all fun kv => wfAttrKey kv.1) = true →
      ∀ (tagPfx : Pfx) (tagName : String) (pfs : Prefixes)
        (acc : List (String × String)) (st : List Element) (ps : List Prefixes)
        (rest : List RawEvent),
      from_events ⟨some (tagPfx, tagName, pfs, acc), st, ps, none⟩
        ((attrs.map fun kv => RawEvent.attr none kv.1 kv.2) ++ rest) =
      from_events ⟨some (tagPfx, tagName, pfs,
        attrs.foldl (fun m kv => insertSorted kv.1 kv.2 m) acc), st, ps, none⟩ rest := by
  intro attrs
  induction attrs with
  | nil => intro _ tagPfx tagName pfs acc st ps rest; simp
  | cons kv rest' ih =>
    intro hall tagPfx tagName pfs acc st ps rest
    obtain ⟨k, v⟩ := kv
    simp only [List.all_cons, Bool.and_eq_true] at hall
    obtain ⟨hk, hall'⟩ := hall
    rw [wfAttrKey, Bool.and_eq_true] at hk
    obtain ⟨_, hne⟩ := hk
    have hbe : (k == "xmlns") = false := by
      simp only [bne_iff_ne, ne_eq] at hne
      exact beq_eq_false_iff_ne.mpr hne
    simp only [List.map_cons, List.cons_append]
    rw [from_events]
    simp only [process_event, hbe, Bool.false_eq_true, if_false]
    rw [List.foldl_cons]
    exact ih hall' tagPfx tagName pfs (insertSorted k v acc) st ps rest

theorem parse_events_sim :
    (∀ e : Element, wfE e = true → ∀ (top : Element) (s : List Element)
      (ps : List Prefixes) (rest : List RawEvent),
      from_events ⟨none, top :: s, ps, none⟩ (eventsOfE e ++ rest) =
      from_events ⟨none, top.append_child (reparsed e) :: s, ps, none⟩ rest) ∧
    (∀ n : Node, (match n with
      | .element e => wfE e = true → ∀ (top : Element) (s : List Element)
          (ps : List Prefixes) (rest : List RawEvent),
          from_events ⟨none, top :: s, ps, none⟩ (eventsOfE e ++ rest) =
          from_events ⟨none, top.append_child (reparsed e) :: s, ps, none⟩ rest
      | .text _ => True)) ∧
    (∀ l : List Node, wfL l = true → ∀ (top : Element) (s : List Element)
      (ps : List Prefixes) (rest : List RawEvent),
      from_events ⟨none, top :: s, ps, none⟩ (eventsOfL l ++ rest) =
      from_events ⟨none, addChildren top (reparsedL l) :: s, ps, none⟩ rest) := by
  exact tree_ind
    (fun e => wfE e = true → ∀ (top : Element) (s : List Element)
      (ps : List Prefixes) (rest : List RawEvent),
      from_events ⟨none, top :: s, ps, none⟩ (eventsOfE e ++ rest) =
      from_events ⟨none, top.append_child (reparsed e) :: s, ps, none⟩ rest)
    (fun n => match n with
      | .element e => wfE e = true → ∀ (top : Element) (s : List Element)
          (ps : List Prefixes) (rest : List RawEvent),
          from_events ⟨none, top :: s, ps, none⟩ (eventsOfE e ++ rest) =
          from_events ⟨none, top.append_child (reparsed e) :: s, ps, none⟩ rest
      | .text _ => True)
    (fun l => wfL l = true → ∀ (top : Element) (s : List Element)
      (ps : List Prefixes) (rest : List RawEvent),
      from_events ⟨none, top :: s, ps, none⟩ (eventsOfL l ++ rest) =
      from_events ⟨none, addChildren top (reparsedL l) :: s, ps, none⟩ rest)
    (by
      intro n ns p a c hc hwf top s ps rest
      rw [wfE] at hwf
      simp only [Bool.and_eq_true] at hwf
      obtain ⟨⟨hsort, hkeys⟩, hch⟩ := hwf
      rw [decide_eq_true_eq] at hsort
      simp only [eventsOfE, List.cons_append, List.append_assoc,
        List.singleton_append]
      rw [from_events]
      simp only [process_event]
      rw [from_events]
      simp only [process_event, beq_self_eq_true, eq_self_iff_true, if_true,
        prefixesInsert]
      rw [parse_attrs a hkeys]
      have hfold : a.foldl (fun m kv => insertSorted kv.1 kv.2 m) [] = a := by
        simpa using foldl_insertSorted_sorted a [] (by simpa using hsort)
      rw [hfold]
      rw [from_events]
      simp [process_event, lookupPrefixStack, prefixesGet, prefixesInsert]
      rw [hc hch (Element.mk n ns [(none, ns)] a []) (top :: s)
        ([(none, ns)] :: ps) (.elementFoot :: rest)]
      rw [from_events]
      simp only [process_event, process_end_tag]
      simp [reparsed, addChildren]
    )
    (by intro e he; exact he)
    (by intro s; trivial)
    (by
      intro hwf top s ps rest
      simp [eventsOfL, reparsedL, addChildren_nil]
    )
    (by
      intro x xs hx hxs hwf top s ps rest
      cases x with
      | element e =>
        rw [wfL] at hwf
        simp only [Bool.and_eq_true] at hwf
        obtain ⟨he, hrest⟩ := hwf
        simp only [eventsOfL, eventsOfN, List.append_assoc]
        rw [hx he top s ps (eventsOfL xs ++ rest), hxs hrest]
        rw [append_child_addChildren, addChildren_append]
        simp [reparsedL, reparsedN]
      | text s2 =>
        rw [wfL] at hwf
        simp only [Bool.and_eq_true] at hwf
        obtain ⟨⟨_, _⟩, hrest⟩ := hwf
        simp only [eventsOfL, eventsOfN, List.cons_append, List.nil_append]
        rw [from_events]
        simp only [process_event, process_text]
        rw [hxs hrest]
        rw [append_text_addChildren, addChildren_append]
        simp [reparsedL, reparsedN]
    )

theorem parse_root (e : Element) (hwf : wfE e = true) :
    from_events TreeBuilder.new (eventsOfE e) = .ok (reparsed e) := by
  obtain ⟨n, ns, p, a, c⟩ := e
  rw [wfE] at hwf
  simp only [Bool.and_eq_true] at hwf
  obtain ⟨⟨hsort, hkeys⟩, hch⟩ := hwf
  rw [decide_eq_true_eq] at hsort
  show from_events ⟨none, [], [], none⟩ _ = _
  simp only [eventsOfE, List.cons_append, List.append_assoc,
    List.singleton_append]
  rw [from_events]
  simp only [process_event]
  rw [from_events]
  simp only [process_event, beq_self_eq_true, eq_self_iff_true, if_true,
    prefixesInsert]
  rw [parse_attrs a hkeys]
  have hfold : a.foldl (fun m kv => insertSorted kv.1 kv.2 m) [] = a := by
    simpa using foldl_insertSorted_sorted a [] (by simpa using hsort)
  rw [hfold]
  rw [from_events]
  simp [process_event, lookupPrefixStack, prefixesGet, prefixesInsert]
  rw [parse_events_sim.2.2 c hch (Element.mk n ns [(none, ns)] a []) []
    [[(none, ns)]] [.elementFoot]]
  rw [from_events]
  simp only [process_event, process_end_tag]
  simp [reparsed, addChildren]

theorem elemEq_reparsed :
    (∀ e : Element, elemEq (reparsed e) e = true) ∧
    (∀ n : Node, nodeEq (reparsedN n) n = true) ∧
    (∀ l : List Node, (reparsedL l).length = l.length ∧
      nodesEqAll (reparsedL l) l = true) := by
  exact tree_ind
    (fun e => elemEq (reparsed e) e = true)
    (fun n => nodeEq (reparsedN n) n = true)
    (fun l => (reparsedL l).length = l.length ∧ nodesEqAll (reparsedL l) l = true)
    (by
      intro n ns p a c hc
      rw [reparsed, elemEq]
      obtain ⟨hlen, hall⟩ := hc
      simp [hlen, hall]
    )
    (by
      intro e he
      rw [reparsedN, nodeEq]
      exact he
    )
    (by
      intro s
      rw [reparsedN, nodeEq]
      simp
    )
    (by simp [reparsedL, nodesEqAll])
    (by
      intro x xs hx hxs
      obtain ⟨hlen, hall⟩ := hxs
      rw [reparsedL]
      constructor
      · simp [hlen]
      · rw [nodesEqAll]
        simp [hx, hall]
    )

/-- C1 counterexample: `adjacentTexts` is built purely with the public
mutation API (`bare` + two `append_text_node` calls) and contains only
representable constructs, yet parsing its serialization succeeds with a
*single* text child `"xy"` — the two adjacent text nodes merge at the byte
bottleneck — and the result is not equal to the original tree, so
`parse(serialize(T)) == T` fails as stated. -/
theorem c1_counterexample :
    roundTrip adjacentTexts =
      .ok (Element.mk "a" "ns" [(none, "ns")] [] [.text "xy"]) ∧
    elemEq (Element.mk "a" "ns" [(none, "ns")] [] [.text "xy"])
      adjacentTexts = false := by
  exact ⟨rfl, rfl⟩

/-- C1 (amended): for every Element tree built via the public mutation API
whose attribute keys are plain names (no prefix, not `xmlns`, as the
`BTreeMap` invariant keeps them sorted) and whose child lists contain no
empty text node and no two adjacent text nodes (`wfE`), parsing the
serialization succeeds and yields an Element equal to the original under the
prefix-insensitive equality of the data model. -/
theorem c1_round_trip_amended (e : Element) (hwf : wfE e = true) :
    ∃ e', roundTrip e = .ok e' ∧ elemEq e' e = true := by
  obtain ⟨w', hw⟩ := write_wf_items.1 e hwf ItemWriter.init
  refine ⟨reparsed e, ?_, elemEq_reparsed.1 e⟩
  rw [roundTrip, hw]
  dsimp only
  have ht := transduce_events.1 e hwf "" []
  rw [List.append_nil] at ht
  simp only [flushText_empty, List.nil_append, transduceGo, List.append_nil] at ht
  rw [transduce, ht, from_reader]
  exact parse_root e hwf

/-- Closed instance of the amended C1: `sampleTree` (built with `builder`,
`set_attr`, `append_child`, `append_text_node`) satisfies the added
conditions and round-trips up to prefix-insensitive equality. -/
theorem c1_round_trip_amended_witness :
    wfE sampleTree = true ∧
    ∃ e', roundTrip sampleTree = .ok e' ∧ elemEq e' sampleTree = true := by
  exact ⟨rfl, c1_round_trip_amended sampleTree rfl⟩
